import Mathlib

/-!
Verification of the FactoryPattern user-registration repository.

Shallow embedding of `app/models.py`, `app/repository.py`, `app/db.py` and
`app/factory.py`.  Stateful Python methods become explicit state-passing
functions; the asyncio side is irrelevant to the sequential contract (each
method body runs to completion between awaits), and is modelled separately
for the concurrency claim as an interleaved small-step machine.
-/

namespace FactoryPattern

/-- The `User` response model from `app/models.py`: `id`, `username`, `email`,
`created_at`.  Timestamps are modelled as `Nat` (an abstract clock value that
callers pass to `create_user`, standing for `datetime.now()`). -/
structure User where
  id : Nat
  username : String
  email : String
  created_at : Nat
deriving DecidableEq, Repr

/-- Lookup in an insertion-ordered association list, modelling Python
`dict.get`: a `dict[int, User]` preserves insertion order and maps each key to
its latest value. -/
def dictGet (k : Nat) : List (Nat × User) → Option User
  | [] => none
  | (k', v) :: rest => if k' = k then some v else dictGet k rest

/-- Update in an insertion-ordered association list, modelling Python
`d[k] = v`: an existing key keeps its position and gets the new value, a new
key is appended at the end. -/
def dictInsert (k : Nat) (v : User) : List (Nat × User) → List (Nat × User)
  | [] => [(k, v)]
  | (k', v') :: rest =>
      if k' = k then (k, v) :: rest else (k', v') :: dictInsert k v rest

/-- State of `InMemoryUserRepository`: the private `_users : dict[int, User]`
(as an insertion-ordered association list) and the private `_next_id` counter. -/
structure InMemoryState where
  users : List (Nat × User)
  next_id : Nat
deriving DecidableEq, Repr

namespace InMemoryUserRepository

/-- `InMemoryUserRepository.__init__`: empty dict, counter starts at 1. -/
def init : InMemoryState := { users := [], next_id := 1 }

/-- `InMemoryUserRepository.create_user`: under the lock, build a `User` with
id `_next_id` and the current time, store it under its id, increment the
counter, return it.  `now` is the value of `datetime.now()` at this call. -/
def create_user (s : InMemoryState) (username email : String) (now : Nat) :
    User × InMemoryState :=
  let user : User :=
    { id := s.next_id, username := username, email := email, created_at := now }
  (user, { users := dictInsert user.id user s.users, next_id := s.next_id + 1 })

/-- `InMemoryUserRepository.get_user`: `self._users.get(user_id)`. -/
def get_user (s : InMemoryState) (user_id : Nat) : Option User × InMemoryState :=
  (dictGet user_id s.users, s)

/-- `InMemoryUserRepository.list_users`: `list(self._users.values())` — the
dict values in insertion order, no explicit sort. -/
def list_users (s : InMemoryState) : List User × InMemoryState :=
  (s.users.map Prod.snd, s)

end InMemoryUserRepository

/-- Error raised by the storage engine, modelling SQLAlchemy's
`IntegrityError` from the `UNIQUE` constraint on `users.username`
(`app/db.py`, `UserModel.username`). -/
inductive DBError where
  | integrityError
deriving DecidableEq, Repr

instance {ε α : Type} [DecidableEq ε] [DecidableEq α] :
    DecidableEq (Except ε α) := fun a b =>
  match a, b with
  | .error e, .error e' =>
      if h : e = e' then .isTrue (by rw [h])
      else .isFalse fun hh => h (Except.error.inj hh)
  | .error _, .ok _ => .isFalse fun hh => Except.noConfusion hh
  | .ok _, .error _ => .isFalse fun hh => Except.noConfusion hh
  | .ok x, .ok y =>
      if h : x = y then .isTrue (by rw [h])
      else .isFalse fun hh => h (Except.ok.inj hh)

/-- State of the SQLite database file: whether the `users` table exists, and
its rows.  Each row carries the engine-assigned integer primary key. -/
structure SQLiteDB where
  schema_created : Bool
  rows : List User
deriving DecidableEq, Repr

/-- State of `SQLiteUserRepository`: the database handle, the lazy
`_initialized` flag, and a ghost counter of how many times this instance has
run `Base.metadata.create_all` (used to state the once-only claim). -/
structure SQLiteRepoState where
  db : SQLiteDB
  initialized : Bool
  init_count : Nat
deriving DecidableEq, Repr

/-- Primary-key assignment of SQLite for `INTEGER PRIMARY KEY` columns with no
deletes: one more than the largest existing id (1 on an empty table). -/
def sqliteNextId (rows : List User) : Nat :=
  (rows.map User.id).foldl max 0 + 1

namespace SQLiteUserRepository

/-- A fresh `SQLiteUserRepository.__init__` over database `d`:
`_initialized = False`, no `create_all` run yet by this instance. -/
def init (d : SQLiteDB) : SQLiteRepoState :=
  { db := d, initialized := false, init_count := 0 }

/-- `SQLiteUserRepository._init_db`: return immediately when `_initialized`
is set; otherwise run `Base.metadata.create_all` (idempotent create-if-absent,
modelled as setting `schema_created`) and set the flag. -/
def _init_db (s : SQLiteRepoState) : SQLiteRepoState :=
  if s.initialized then s
  else
    { db := { s.db with schema_created := true },
      initialized := true,
      init_count := s.init_count + 1 }

/-- `SQLiteUserRepository.create_user`: ensure the schema, then insert a row
letting the engine assign the primary key and the `created_at` default
(`datetime.now()`, passed as `now`), commit, refresh, and return the mapped
`User`.  A commit violating the `UNIQUE` constraint on `username` raises
`IntegrityError` and leaves the table unchanged (the session rolls back). -/
def create_user (s : SQLiteRepoState) (username email : String) (now : Nat) :
    Except DBError User × SQLiteRepoState :=
  let s := _init_db s
  if s.db.rows.any (fun r => r.username = username) then
    (.error .integrityError, s)
  else
    let user : User :=
      { id := sqliteNextId s.db.rows, username := username, email := email,
        created_at := now }
    (.ok user, { s with db := { s.db with rows := s.db.rows ++ [user] } })

/-- `SQLiteUserRepository.get_user`: ensure the schema, `SELECT` the row whose
primary key equals `user_id` (`scalar_one_or_none`), map it to `User` or
return `None`. -/
def get_user (s : SQLiteRepoState) (user_id : Nat) :
    Option User × SQLiteRepoState :=
  let s := _init_db s
  ((s.db.rows.filter (fun r => r.id = user_id)).head?, s)

/-- Stable insertion into a list sorted by id, the building block of
`ORDER BY users.id`. -/
def insertById (u : User) : List User → List User
  | [] => [u]
  | v :: rest => if u.id ≤ v.id then u :: v :: rest else v :: insertById u rest

/-- `ORDER BY users.id` on a result set: stable sort ascending by id. -/
def sortById : List User → List User
  | [] => []
  | u :: rest => insertById u (sortById rest)

/-- `SQLiteUserRepository.list_users`: ensure the schema, `SELECT` all rows
`ORDER BY id`, map each to `User`. -/
def list_users (s : SQLiteRepoState) : List User × SQLiteRepoState :=
  let s := _init_db s
  (sortById s.db.rows, s)

end SQLiteUserRepository

/-- One repository operation, used to describe call sequences against an
instance.  `create` carries the two string arguments and the clock value. -/
inductive Op where
  | create (username email : String) (now : Nat)
  | get (user_id : Nat)
  | list
deriving DecidableEq, Repr

/-- State transition of one operation on the in-memory repository. -/
def memStep (s : InMemoryState) : Op → InMemoryState
  | .create u e t => (InMemoryUserRepository.create_user s u e t).2
  | .get k => (InMemoryUserRepository.get_user s k).2
  | .list => (InMemoryUserRepository.list_users s).2

/-- The in-memory state reached by a call sequence on a fresh instance. -/
def memReach (ops : List Op) : InMemoryState :=
  ops.foldl memStep InMemoryUserRepository.init

/-- State transition of one operation on the SQLite repository. -/
def sqlStep (s : SQLiteRepoState) : Op → SQLiteRepoState
  | .create u e t => (SQLiteUserRepository.create_user s u e t).2
  | .get k => (SQLiteUserRepository.get_user s k).2
  | .list => (SQLiteUserRepository.list_users s).2

/-- Run a call sequence on the SQLite repository. -/
def sqlRun (ops : List Op) (s : SQLiteRepoState) : SQLiteRepoState :=
  ops.foldl sqlStep s

/-- Run a sequence of `create_user` calls on the in-memory repository,
collecting the returned `User` records in call order. -/
def memCreateAll : List (String × String × Nat) → InMemoryState →
    List User × InMemoryState
  | [], s => ([], s)
  | (u, e, t) :: rest, s =>
      let (user, s') := InMemoryUserRepository.create_user s u e t
      let (users, s'') := memCreateAll rest s'
      (user :: users, s'')

/-- Run a sequence of `create_user` calls on the SQLite repository, collecting
each call's outcome (`ok user` or the raised `IntegrityError`) in call order. -/
def sqlCreateAll : List (String × String × Nat) → SQLiteRepoState →
    List (Except DBError User) × SQLiteRepoState
  | [], s => ([], s)
  | (u, e, t) :: rest, s =>
      let (r, s') := SQLiteUserRepository.create_user s u e t
      let (rs, s'') := sqlCreateAll rest s'
      (r :: rs, s'')

/-- A repository instance as constructed by the factory: which variant, and
for the persistent one the storage location (`db_path`). -/
inductive Repo where
  | memory
  | sqlite (db_path : String)
deriving DecidableEq, Repr

/-- The claim "the error message names value `v`" is read as: `v` occurs as a
contiguous substring of the message. -/
def messageNames (msg v : String) : Prop :=
  v.data <:+: msg.data

instance (msg v : String) : Decidable (messageNames msg v) :=
  inferInstanceAs (Decidable (v.data <:+: msg.data))

/-- Python `str.lower()` on one character (ASCII range; the selectors this
factory compares against are ASCII). -/
def lowerChar (c : Char) : Char :=
  if 65 ≤ c.toNat ∧ c.toNat ≤ 90 then Char.ofNat (c.toNat + 32) else c

/-- Python `str.lower()` applied to a selector string. -/
def lowerStr (s : String) : String := ⟨s.data.map lowerChar⟩

/-- `create_user_repository` from `app/factory.py`: when called with `None`,
read the `REPO_TYPE` environment variable (default `"memory"`); lowercase the
selector; `"memory"` and `"sqlite"` choose the variants (the SQLite one with
its default path `users.db`), anything else raises
`ValueError(f"Unknown repository type: \x7brepo_type\x7d. Use 'memory' or 'sqlite'")`.
The environment is passed explicitly as `env`. -/
def create_user_repository (repo_type : Option String)
    (env : String → Option String) : Except String Repo :=
  let rt :=
    match repo_type with
    | none => (env "REPO_TYPE").getD "memory"
    | some r => r
  let rt := lowerStr rt
  if rt = "memory" then .ok .memory
  else if rt = "sqlite" then .ok (.sqlite "users.db")
  else
    .error ("Unknown repository type: " ++ rt ++
      ". Use \x27memory\x27 or \x27sqlite\x27")

/-- Progress of one concurrent `create_user` call through the body of
`InMemoryUserRepository.create_user`:
`ready` (before `async with self._lock`), `locked` (lock acquired),
`gotId k` (has read `self._next_id` into its local `user`),
`finished` (has stored the user and incremented the counter, still holding
the lock), `done` (lock released, call returned). -/
inductive Phase where
  | ready
  | locked
  | gotId (k : Nat)
  | finished
  | done
deriving DecidableEq, Repr

/-- One concurrent `create_user` call: its arguments, its clock value, and
how far it has run. -/
structure CTask where
  username : String
  email : String
  now : Nat
  phase : Phase
deriving DecidableEq, Repr

/-- Shared state of N concurrent `create_user` calls against one in-memory
instance: the repository state, which task (by index) holds `self._lock`,
and the tasks. -/
structure ConcState where
  store : InMemoryState
  lock : Option Nat
  tasks : List CTask
deriving DecidableEq, Repr

/-- Phases during which a task is inside the `async with self._lock` block. -/
def holdsLock (p : Phase) : Bool :=
  match p with
  | .locked | .gotId _ | .finished => true
  | _ => false

/-- Phases a task reaches only after it has inserted its record. -/
def hasInserted (p : Phase) : Bool :=
  match p with
  | .finished | .done => true
  | _ => false

/-- Interleaving semantics of the concurrent calls.  The scheduler picks any
task that can move.  `asyncio.Lock.acquire` succeeds only when the lock is
free; the other three steps are the successive actions of the `create_user`
body, and only `acquire` inspects the lock — mutual exclusion is a property
to be proved, not assumed. -/
inductive CStep : ConcState → ConcState → Prop where
  | acquire (cs : ConcState) (i : Nat) (t : CTask)
      (ht : cs.tasks[i]? = some t) (hp : t.phase = .ready)
      (hl : cs.lock = none) :
      CStep cs { cs with
                 lock := some i,
                 tasks := cs.tasks.set i { t with phase := .locked } }
  | read (cs : ConcState) (i : Nat) (t : CTask)
      (ht : cs.tasks[i]? = some t) (hp : t.phase = .locked) :
      CStep cs { cs with
                 tasks := cs.tasks.set i
                   { t with phase := .gotId cs.store.next_id } }
  | write (cs : ConcState) (i : Nat) (t : CTask) (k : Nat)
      (ht : cs.tasks[i]? = some t) (hp : t.phase = .gotId k) :
      CStep cs { store := ⟨dictInsert k ⟨k, t.username, t.email, t.now⟩
                     cs.store.users, cs.store.next_id + 1⟩,
                 lock := cs.lock,
                 tasks := cs.tasks.set i { t with phase := .finished } }
  | release (cs : ConcState) (i : Nat) (t : CTask)
      (ht : cs.tasks[i]? = some t) (hp : t.phase = .finished) :
      CStep cs { cs with
                 lock := none,
                 tasks := cs.tasks.set i { t with phase := .done } }

/-- Launch state: a fresh in-memory instance, a free lock, and the given
concurrent `create_user` calls. -/
def concInit (tasks : List CTask) : ConcState :=
  { store := InMemoryUserRepository.init, lock := none, tasks := tasks }

/-- Invariant of the concurrent machine: stored ids are distinct and below
the counter, any task inside the critical section is the lock holder, a task
that has read its id read the current counter, and the store has exactly one
record per task that has inserted. -/
def concInv (cs : ConcState) : Prop :=
  (cs.store.users.map Prod.fst).Nodup ∧
  (∀ p ∈ cs.store.users, p.1 < cs.store.next_id) ∧
  (∀ (i : Nat) (t : CTask), cs.tasks[i]? = some t →
    holdsLock t.phase = true → cs.lock = some i) ∧
  (∀ (i : Nat) (t : CTask) (k : Nat), cs.tasks[i]? = some t →
    t.phase = .gotId k → k = cs.store.next_id) ∧
  cs.store.users.length = cs.tasks.countP (fun t => hasInserted t.phase)

/-! ## Association-list (Python dict) lemmas -/

theorem dictGet_dictInsert_self (k : Nat) (v : User) (d : List (Nat × User)) :
    dictGet k (dictInsert k v d) = some v := by
  induction d with
  | nil => simp [dictInsert, dictGet]
  | cons p rest ih =>
      obtain ⟨k', v'⟩ := p
      by_cases h : k' = k
      · simp [dictInsert, dictGet, h]
      · simp [dictInsert, dictGet, h, ih]

theorem dictGet_dictInsert_ne (k k' : Nat) (v : User) (d : List (Nat × User))
    (h : k ≠ k') : dictGet k (dictInsert k' v d) = dictGet k d := by
  have h' : ¬(k' = k) := fun hh => h hh.symm
  induction d with
  | nil => simp [dictInsert, dictGet, h']
  | cons p rest ih =>
      obtain ⟨k₀, v₀⟩ := p
      by_cases h0 : k₀ = k'
      · subst h0
        simp [dictInsert, dictGet, h']
      · simp only [dictInsert, if_neg h0]
        by_cases h1 : k₀ = k
        · simp [dictGet, h1]
        · simp [dictGet, h1, ih]

theorem dictInsert_fresh (k : Nat) (v : User) (d : List (Nat × User))
    (h : ∀ p ∈ d, p.1 ≠ k) : dictInsert k v d = d ++ [(k, v)] := by
  induction d with
  | nil => simp [dictInsert]
  | cons p rest ih =>
      obtain ⟨k₀, v₀⟩ := p
      have hk : k₀ ≠ k := h (k₀, v₀) (by simp)
      simp only [dictInsert, if_neg hk, List.cons_append, List.cons.injEq, true_and]
      exact ih fun p hp => h p (List.mem_cons_of_mem _ hp)

theorem dictGet_eq_none (k : Nat) (d : List (Nat × User))
    (h : ∀ p ∈ d, p.1 ≠ k) : dictGet k d = none := by
  induction d with
  | nil => rfl
  | cons p rest ih =>
      obtain ⟨k₀, v₀⟩ := p
      have hk : k₀ ≠ k := h (k₀, v₀) (by simp)
      simp only [dictGet, if_neg hk]
      exact ih fun p hp => h p (List.mem_cons_of_mem _ hp)

theorem dictGet_mem (k : Nat) (v : User) (d : List (Nat × User))
    (h : dictGet k d = some v) : (k, v) ∈ d := by
  induction d with
  | nil => simp [dictGet] at h
  | cons p rest ih =>
      obtain ⟨k₀, v₀⟩ := p
      by_cases h0 : k₀ = k
      · subst h0
        simp only [dictGet, if_true, eq_self_iff_true] at h
        have hv := Option.some.inj h
        subst hv
        simp
      · simp only [dictGet, if_neg h0] at h
        exact List.mem_cons_of_mem _ (ih h)

/-! ## In-memory repository invariant -/

/-- Invariant of every reachable `InMemoryUserRepository` state: keys are
strictly increasing in insertion order, all keys are below `_next_id`, and
each stored `User` carries its own key as `id`. -/
def memInv (s : InMemoryState) : Prop :=
  s.users.Pairwise (fun a b => a.1 < b.1) ∧
  (∀ p ∈ s.users, p.1 < s.next_id) ∧
  (∀ p ∈ s.users, p.2.id = p.1)

theorem memInv_init : memInv InMemoryUserRepository.init := by
  refine ⟨List.Pairwise.nil, ?_, ?_⟩ <;> intro p hp <;> simp [InMemoryUserRepository.init] at hp

theorem memInv_create (s : InMemoryState) (u e : String) (t : Nat)
    (h : memInv s) : memInv (InMemoryUserRepository.create_user s u e t).2 := by
  obtain ⟨hsort, hlt, hid⟩ := h
  have hfresh : ∀ p ∈ s.users, p.1 ≠ s.next_id :=
    fun p hp => Nat.ne_of_lt (hlt p hp)
  simp only [InMemoryUserRepository.create_user]
  rw [dictInsert_fresh _ _ _ hfresh]
  refine ⟨?_, ?_, ?_⟩
  · rw [List.pairwise_append]
    refine ⟨hsort, List.pairwise_singleton _ _, ?_⟩
    intro a ha b hb
    simp only [List.mem_singleton] at hb
    subst hb
    exact hlt a ha
  · intro p hp
    rcases List.mem_append.1 hp with hp | hp
    · exact Nat.lt_trans (hlt p hp) (Nat.lt_succ_self _)
    · simp only [List.mem_singleton] at hp
      subst hp
      exact Nat.lt_succ_self _
  · intro p hp
    rcases List.mem_append.1 hp with hp | hp
    · exact hid p hp
    · simp only [List.mem_singleton] at hp
      subst hp
      rfl

theorem memInv_step (s : InMemoryState) (op : Op) (h : memInv s) :
    memInv (memStep s op) := by
  cases op with
  | create u e t => exact memInv_create s u e t h
  | get k => exact h
  | list => exact h

theorem memInv_foldl (ops : List Op) (s : InMemoryState) (h : memInv s) :
    memInv (ops.foldl memStep s) := by
  induction ops generalizing s with
  | nil => exact h
  | cons op rest ih => exact ih _ (memInv_step s op h)

theorem memReach_inv (ops : List Op) : memInv (memReach ops) :=
  memInv_foldl ops _ memInv_init

/-! ## Id assignment by sequences of in-memory creates -/

theorem memCreateAll_ids (inputs : List (String × String × Nat))
    (s : InMemoryState) :
    (memCreateAll inputs s).1.map User.id =
      List.range' s.next_id inputs.length := by
  induction inputs generalizing s with
  | nil => rfl
  | cons p rest ih =>
      obtain ⟨u, e, t⟩ := p
      simp only [memCreateAll, InMemoryUserRepository.create_user,
        List.map_cons, List.length_cons]
      rw [List.range'_succ]
      exact congrArg (List.cons s.next_id) (ih _)

theorem range'_pairwise_lt (n s : Nat) :
    (List.range' s n).Pairwise (· < ·) := by
  induction n generalizing s with
  | zero => exact List.Pairwise.nil
  | succ n ih =>
      rw [List.range'_succ]
      refine List.pairwise_cons.2 ⟨?_, ih (s + 1)⟩
      intro b hb
      have := List.mem_range'_1.1 hb
      omega

/-- C2: on a single fresh in-memory instance, the ids assigned by any
sequence of `create_user` calls are pairwise distinct, strictly increasing in
call order, and the first assigned id is 1. -/
theorem inMemory_ids_distinct_increasing_from_one
    (inputs : List (String × String × Nat)) :
    ((memCreateAll inputs InMemoryUserRepository.init).1.map User.id).Pairwise
        (· < ·) ∧
    ((memCreateAll inputs InMemoryUserRepository.init).1.map User.id).Nodup ∧
    (inputs ≠ [] →
      ((memCreateAll inputs InMemoryUserRepository.init).1.map
          User.id).head? = some 1) := by
  have hids := memCreateAll_ids inputs InMemoryUserRepository.init
  rw [hids]
  refine ⟨range'_pairwise_lt _ _, (range'_pairwise_lt _ _).imp Nat.ne_of_lt, ?_⟩
  intro hne
  cases inputs with
  | nil => exact absurd rfl hne
  | cons p rest => rw [List.length_cons, List.range'_succ]; rfl

/-- Witness for C2 at a concrete two-call sequence. -/
theorem inMemory_ids_distinct_increasing_from_one_witness :
    (([("alice", "alice@x.com", 0), ("bob", "bob@x.com", 1)] :
        List (String × String × Nat)) ≠ []) ∧
    ((memCreateAll [("alice", "alice@x.com", 0), ("bob", "bob@x.com", 1)]
        InMemoryUserRepository.init).1.map User.id).head? = some 1 :=
  ⟨by decide,
   (inMemory_ids_distinct_increasing_from_one
      [("alice", "alice@x.com", 0), ("bob", "bob@x.com", 1)]).2.2 (by decide)⟩

/-- C8: on the in-memory repository, `get_user` and `list_users` leave the
whole state (the id-to-User mapping and the `_next_id` counter) unchanged;
`create_user` is the mutating operation (it advances the counter). -/
theorem inMemory_reads_leave_state_unchanged :
    (∀ (s : InMemoryState) (k : Nat),
      (InMemoryUserRepository.get_user s k).2 = s) ∧
    (∀ s : InMemoryState, (InMemoryUserRepository.list_users s).2 = s) ∧
    (∀ (s : InMemoryState) (u e : String) (t : Nat),
      (InMemoryUserRepository.create_user s u e t).2.next_id = s.next_id + 1) :=
  ⟨fun _ _ => rfl, fun _ => rfl, fun _ _ _ _ => rfl⟩

/-- C10: called with `None`, the factory reads the selector from the
`REPO_TYPE` environment variable; when that variable is unset it behaves as
for `"memory"` and constructs the in-memory variant, and when it is set it
behaves exactly as if the variable's value had been passed. -/
theorem factory_none_reads_env_defaults_memory (env : String → Option String) :
    (env "REPO_TYPE" = none → create_user_repository none env = .ok .memory) ∧
    (∀ v, env "REPO_TYPE" = some v →
      create_user_repository none env = create_user_repository (some v) env) := by
  constructor
  · intro h
    simp only [create_user_repository, h, Option.getD]
    rfl
  · intro v h
    simp only [create_user_repository, h, Option.getD]

/-- Witness for C10 with an unset and a set environment. -/
theorem factory_none_reads_env_defaults_memory_witness :
    create_user_repository none (fun _ => none) = .ok .memory ∧
    create_user_repository none (fun _ => some "sqlite") =
      create_user_repository (some "sqlite") (fun _ => some "sqlite") :=
  ⟨(factory_none_reads_env_defaults_memory (fun _ => none)).1 rfl,
   (factory_none_reads_env_defaults_memory (fun _ => some "sqlite")).2
      "sqlite" rfl⟩

/-! ## SQLite repository lemmas -/

theorem _init_db_db_rows (s : SQLiteRepoState) :
    (SQLiteUserRepository._init_db s).db.rows = s.db.rows := by
  unfold SQLiteUserRepository._init_db
  split <;> rfl

theorem foldl_max_le_init (l : List Nat) (a : Nat) : a ≤ l.foldl max a := by
  induction l generalizing a with
  | nil => exact Nat.le_refl a
  | cons x xs ih => exact Nat.le_trans (Nat.le_max_left a x) (ih (max a x))

theorem mem_le_foldl_max (l : List Nat) (x : Nat) (hx : x ∈ l) (a : Nat) :
    x ≤ l.foldl max a := by
  induction l generalizing a with
  | nil => cases hx
  | cons y ys ih =>
      rcases List.mem_cons.1 hx with h | h
      · subst h
        exact Nat.le_trans (Nat.le_max_right a x) (foldl_max_le_init ys _)
      · exact ih h (max a y)

theorem row_id_lt_sqliteNextId (rows : List User) (r : User) (hr : r ∈ rows) :
    r.id < sqliteNextId rows :=
  Nat.lt_succ_of_le
    (mem_le_foldl_max (rows.map User.id) r.id (List.mem_map_of_mem User.id hr) 0)

theorem filter_id_eq_of_pairwise (rows : List User) (u : User)
    (hp : rows.Pairwise (fun a b => a.id < b.id)) (hu : u ∈ rows) :
    rows.filter (fun r => r.id = u.id) = [u] := by
  induction rows with
  | nil => cases hu
  | cons v vs ih =>
      rw [List.pairwise_cons] at hp
      obtain ⟨hv, hvs⟩ := hp
      rcases List.mem_cons.1 hu with h | h
      · subst h
        have hrest : vs.filter (fun r => r.id = u.id) = [] := by
          rw [List.filter_eq_nil_iff]
          intro b hb
          have := hv b hb
          simp only [decide_eq_true_eq]
          omega
        simp [List.filter_cons, hrest]
      · have hne : ¬(v.id = u.id) := Nat.ne_of_lt (hv u h)
        simp only [List.filter_cons, decide_eq_true_eq, if_neg hne]
        exact ih hvs h

/-- C4: `get_user` with an id that no stored record carries returns the absent
value (`None`) on both the in-memory and the SQLite variant; neither raises
(both embeddings are total functions into `Option User`). -/
theorem get_user_absent_returns_none (sm : InMemoryState)
    (ss : SQLiteRepoState) (k : Nat)
    (hm : ∀ p ∈ sm.users, p.1 ≠ k)
    (hs : ∀ r ∈ ss.db.rows, r.id ≠ k) :
    (InMemoryUserRepository.get_user sm k).1 = none ∧
    (SQLiteUserRepository.get_user ss k).1 = none := by
  constructor
  · exact dictGet_eq_none k sm.users hm
  · simp only [SQLiteUserRepository.get_user, _init_db_db_rows]
    have hfilter : (ss.db.rows.filter (fun r => r.id = k)) = [] := by
      rw [List.filter_eq_nil_iff]
      intro r hr
      simp only [decide_eq_true_eq]
      exact hs r hr
    rw [hfilter]
    rfl

/-- Witness for C4: a fresh instance of each variant and the id 999. -/
theorem get_user_absent_returns_none_witness :
    (∀ p ∈ InMemoryUserRepository.init.users, p.1 ≠ 999) ∧
    (∀ r ∈ (SQLiteUserRepository.init ⟨false, []⟩).db.rows, r.id ≠ 999) ∧
    (InMemoryUserRepository.get_user InMemoryUserRepository.init 999).1 = none ∧
    (SQLiteUserRepository.get_user (SQLiteUserRepository.init ⟨false, []⟩)
        999).1 = none := by
  refine ⟨?_, ?_, ?_⟩
  · intro p hp
    simp [InMemoryUserRepository.init] at hp
  · intro r hr
    simp [SQLiteUserRepository.init] at hr
  · exact get_user_absent_returns_none InMemoryUserRepository.init
      (SQLiteUserRepository.init ⟨false, []⟩) 999
      (fun p hp => by simp [InMemoryUserRepository.init] at hp)
      (fun r hr => by simp [SQLiteUserRepository.init] at hr)

/-- C6: the in-memory `create_user` is total and always inserts — even when
the requested username is already stored (no username-uniqueness check
anywhere in `InMemoryUserRepository`); the SQLite variant, by contrast,
raises `IntegrityError` from the schema-level `UNIQUE` constraint on exactly
that input. -/
theorem inMemory_create_never_fails_no_username_uniqueness
    (s : InMemoryState) (ss : SQLiteRepoState) (uname em : String) (t : Nat)
    (hfresh : ∀ p ∈ s.users, p.1 < s.next_id)
    (hdupMem : ∃ p ∈ s.users, p.2.username = uname)
    (hdupSql : ∃ r ∈ ss.db.rows, r.username = uname) :
    dictGet (InMemoryUserRepository.create_user s uname em t).1.id
        (InMemoryUserRepository.create_user s uname em t).2.users =
      some (InMemoryUserRepository.create_user s uname em t).1 ∧
    (InMemoryUserRepository.create_user s uname em t).2.users.length =
      s.users.length + 1 ∧
    (SQLiteUserRepository.create_user ss uname em t).1 =
      .error .integrityError := by
  refine ⟨?_, ?_, ?_⟩
  · exact dictGet_dictInsert_self _ _ _
  · simp only [InMemoryUserRepository.create_user]
    rw [dictInsert_fresh _ _ _ (fun p hp => Nat.ne_of_lt (hfresh p hp))]
    simp
  · obtain ⟨r, hr, hname⟩ := hdupSql
    simp only [SQLiteUserRepository.create_user]
    have hany : ((SQLiteUserRepository._init_db ss).db.rows.any
        (fun r => r.username = uname)) = true := by
      rw [_init_db_db_rows, List.any_eq_true]
      exact ⟨r, hr, by simp [hname]⟩
    rw [if_pos hany]

/-- Witness for C6: both variants hold a user `alice`; `alice` is created
again. -/
theorem inMemory_create_never_fails_no_username_uniqueness_witness :
    dictGet (InMemoryUserRepository.create_user
        ⟨[(1, ⟨1, "alice", "alice@x.com", 0⟩)], 2⟩ "alice" "a2@x.com" 5).1.id
      (InMemoryUserRepository.create_user
        ⟨[(1, ⟨1, "alice", "alice@x.com", 0⟩)], 2⟩ "alice" "a2@x.com" 5).2.users
      = some (InMemoryUserRepository.create_user
        ⟨[(1, ⟨1, "alice", "alice@x.com", 0⟩)], 2⟩ "alice" "a2@x.com" 5).1 ∧
    (InMemoryUserRepository.create_user
        ⟨[(1, ⟨1, "alice", "alice@x.com", 0⟩)], 2⟩ "alice" "a2@x.com" 5).2.users.length
      = 2 ∧
    (SQLiteUserRepository.create_user
        ⟨⟨true, [⟨1, "alice", "alice@x.com", 0⟩]⟩, true, 1⟩ "alice" "a2@x.com"
        5).1 = .error .integrityError := by
  have h := inMemory_create_never_fails_no_username_uniqueness
    ⟨[(1, ⟨1, "alice", "alice@x.com", 0⟩)], 2⟩
    ⟨⟨true, [⟨1, "alice", "alice@x.com", 0⟩]⟩, true, 1⟩ "alice" "a2@x.com" 5
    (by decide) ⟨(1, ⟨1, "alice", "alice@x.com", 0⟩), by decide, rfl⟩
    ⟨⟨1, "alice", "alice@x.com", 0⟩, by decide, rfl⟩
  exact ⟨h.1, h.2.1, h.2.2⟩

/-! ## Round-trip: create then get -/

theorem memCreateAll_preserves_get (inputs : List (String × String × Nat))
    (s : InMemoryState) (k : Nat) (v : User) (hk : k < s.next_id)
    (hget : dictGet k s.users = some v) :
    dictGet k (memCreateAll inputs s).2.users = some v := by
  induction inputs generalizing s with
  | nil => exact hget
  | cons p rest ih =>
      obtain ⟨u, e, t⟩ := p
      simp only [memCreateAll, InMemoryUserRepository.create_user]
      apply ih
      · exact Nat.lt_trans hk (Nat.lt_succ_self _)
      · rw [dictGet_dictInsert_ne _ _ _ _ (Nat.ne_of_lt hk)]
        exact hget

theorem memCreateAll_roundtrip (inputs : List (String × String × Nat))
    (s : InMemoryState) (hinv : memInv s) (u : User)
    (hu : u ∈ (memCreateAll inputs s).1) :
    dictGet u.id (memCreateAll inputs s).2.users = some u := by
  induction inputs generalizing s with
  | nil => cases hu
  | cons p rest ih =>
      obtain ⟨un, em, t⟩ := p
      simp only [memCreateAll] at hu ⊢
      rcases List.mem_cons.1 hu with h | h
      · subst h
        apply memCreateAll_preserves_get
        · exact Nat.lt_succ_self _
        · exact dictGet_dictInsert_self _ _ _
      · exact ih _ (memInv_create s un em t hinv) h

theorem sqlCreateAll_cons (un em : String) (t : Nat)
    (rest : List (String × String × Nat)) (s : SQLiteRepoState) :
    sqlCreateAll ((un, em, t) :: rest) s =
      ((SQLiteUserRepository.create_user s un em t).1 ::
        (sqlCreateAll rest (SQLiteUserRepository.create_user s un em t).2).1,
       (sqlCreateAll rest (SQLiteUserRepository.create_user s un em t).2).2) :=
  rfl

theorem sql_create_user_rows (s : SQLiteRepoState) (un em : String) (t : Nat) :
    (SQLiteUserRepository.create_user s un em t).2.db.rows = s.db.rows ∨
    (SQLiteUserRepository.create_user s un em t).2.db.rows =
      s.db.rows ++ [⟨sqliteNextId s.db.rows, un, em, t⟩] := by
  simp only [SQLiteUserRepository.create_user]
  split
  · left
    exact _init_db_db_rows s
  · right
    show (SQLiteUserRepository._init_db s).db.rows ++
        [⟨sqliteNextId (SQLiteUserRepository._init_db s).db.rows, un, em, t⟩] =
      s.db.rows ++ [⟨sqliteNextId s.db.rows, un, em, t⟩]
    rw [_init_db_db_rows]

theorem sql_create_user_ok_mem (s : SQLiteRepoState) (un em : String) (t : Nat)
    (u : User) (h : (SQLiteUserRepository.create_user s un em t).1 = .ok u) :
    u ∈ (SQLiteUserRepository.create_user s un em t).2.db.rows := by
  revert h
  simp only [SQLiteUserRepository.create_user]
  split
  · intro h
    cases h
  · intro h
    have h' : Except.ok
        (⟨sqliteNextId (SQLiteUserRepository._init_db s).db.rows, un, em, t⟩ :
          User) = Except.ok u := h
    have hu := Except.ok.inj h'
    subst hu
    show _ ∈ (SQLiteUserRepository._init_db s).db.rows ++ [_]
    exact List.mem_append_right _ (by simp)

theorem sql_create_user_pairwise (s : SQLiteRepoState) (un em : String)
    (t : Nat) (hinv : s.db.rows.Pairwise (fun a b => a.id < b.id)) :
    (SQLiteUserRepository.create_user s un em t).2.db.rows.Pairwise
      (fun a b => a.id < b.id) := by
  rcases sql_create_user_rows s un em t with h | h <;> rw [h]
  · exact hinv
  · rw [List.pairwise_append]
    refine ⟨hinv, List.pairwise_singleton _ _, ?_⟩
    intro a ha b hb
    simp only [List.mem_singleton] at hb
    subst hb
    exact row_id_lt_sqliteNextId _ a ha

theorem sqlCreateAll_pairwise (inputs : List (String × String × Nat))
    (s : SQLiteRepoState)
    (hinv : s.db.rows.Pairwise (fun a b => a.id < b.id)) :
    (sqlCreateAll inputs s).2.db.rows.Pairwise (fun a b => a.id < b.id) := by
  induction inputs generalizing s with
  | nil => exact hinv
  | cons p rest ih =>
      obtain ⟨un, em, t⟩ := p
      rw [sqlCreateAll_cons]
      exact ih _ (sql_create_user_pairwise s un em t hinv)

theorem sqlCreateAll_rows_mono (inputs : List (String × String × Nat))
    (s : SQLiteRepoState) (r : User) (hr : r ∈ s.db.rows) :
    r ∈ (sqlCreateAll inputs s).2.db.rows := by
  induction inputs generalizing s with
  | nil => exact hr
  | cons p rest ih =>
      obtain ⟨un, em, t⟩ := p
      rw [sqlCreateAll_cons]
      apply ih
      rcases sql_create_user_rows s un em t with h | h <;> rw [h]
      · exact hr
      · exact List.mem_append_left _ hr

theorem sqlCreateAll_ok_mem (inputs : List (String × String × Nat))
    (s : SQLiteRepoState) (u : User)
    (hu : Except.ok u ∈ (sqlCreateAll inputs s).1) :
    u ∈ (sqlCreateAll inputs s).2.db.rows := by
  induction inputs generalizing s with
  | nil => cases hu
  | cons p rest ih =>
      obtain ⟨un, em, t⟩ := p
      rw [sqlCreateAll_cons] at hu ⊢
      rcases List.mem_cons.1 hu with h | h
      · exact sqlCreateAll_rows_mono rest _ u
          (sql_create_user_ok_mem s un em t u h.symm)
      · exact ih _ h

/-- C1: after any sequence of `create_user` calls on a single fresh instance,
`get_user` with the id of any record those calls returned yields exactly that
record — same id, username, email and created_at — on both the in-memory and
the SQLite variant (on SQLite, for every call that succeeded). -/
theorem create_then_get_returns_created_record
    (inputs : List (String × String × Nat)) (u : User)
    (hmem : u ∈ (memCreateAll inputs InMemoryUserRepository.init).1) :
    (InMemoryUserRepository.get_user
        (memCreateAll inputs InMemoryUserRepository.init).2 u.id).1 = some u ∧
    (∀ v, Except.ok v ∈
        (sqlCreateAll inputs (SQLiteUserRepository.init ⟨false, []⟩)).1 →
      (SQLiteUserRepository.get_user
          (sqlCreateAll inputs (SQLiteUserRepository.init ⟨false, []⟩)).2
          v.id).1 = some v) := by
  constructor
  · exact memCreateAll_roundtrip inputs _ memInv_init u hmem
  · intro v hv
    have hpair : (sqlCreateAll inputs
        (SQLiteUserRepository.init ⟨false, []⟩)).2.db.rows.Pairwise
        (fun a b => a.id < b.id) :=
      sqlCreateAll_pairwise inputs _ List.Pairwise.nil
    have hmemrow := sqlCreateAll_ok_mem inputs _ v hv
    simp only [SQLiteUserRepository.get_user, _init_db_db_rows]
    rw [filter_id_eq_of_pairwise _ v hpair hmemrow]
    rfl

/-- Witness for C1: one `create_user("alice", "alice@x.com")` call at clock 0
on each fresh variant, then `get_user(1)`. -/
theorem create_then_get_returns_created_record_witness :
    (⟨1, "alice", "alice@x.com", 0⟩ : User) ∈
      (memCreateAll [("alice", "alice@x.com", 0)]
        InMemoryUserRepository.init).1 ∧
    (InMemoryUserRepository.get_user
        (memCreateAll [("alice", "alice@x.com", 0)]
          InMemoryUserRepository.init).2 1).1 =
      some ⟨1, "alice", "alice@x.com", 0⟩ ∧
    (SQLiteUserRepository.get_user
        (sqlCreateAll [("alice", "alice@x.com", 0)]
          (SQLiteUserRepository.init ⟨false, []⟩)).2 1).1 =
      some ⟨1, "alice", "alice@x.com", 0⟩ := by
  have h := create_then_get_returns_created_record
    [("alice", "alice@x.com", 0)] ⟨1, "alice", "alice@x.com", 0⟩ (by decide)
  exact ⟨by decide, h.1,
    h.2 ⟨1, "alice", "alice@x.com", 0⟩ (by decide)⟩

/-! ## Sorting (`ORDER BY id`) and C3 -/

theorem insertById_perm (u : User) (l : List User) :
    (SQLiteUserRepository.insertById u l).Perm (u :: l) := by
  induction l with
  | nil => exact List.Perm.refl _
  | cons v vs ih =>
      simp only [SQLiteUserRepository.insertById]
      split
      · exact List.Perm.refl _
      · exact (ih.cons v).trans (List.Perm.swap u v vs)

theorem sortById_perm (l : List User) :
    (SQLiteUserRepository.sortById l).Perm l := by
  induction l with
  | nil => exact List.Perm.refl _
  | cons u us ih =>
      simp only [SQLiteUserRepository.sortById]
      exact (insertById_perm u _).trans (ih.cons u)

theorem insertById_sorted (u : User) (l : List User)
    (h : l.Pairwise (fun a b => a.id ≤ b.id)) :
    (SQLiteUserRepository.insertById u l).Pairwise (fun a b => a.id ≤ b.id) := by
  induction l with
  | nil => exact List.pairwise_singleton _ _
  | cons v vs ih =>
      rw [List.pairwise_cons] at h
      obtain ⟨hv, hvs⟩ := h
      simp only [SQLiteUserRepository.insertById]
      split
      · rename_i hle
        refine List.pairwise_cons.2 ⟨?_, List.pairwise_cons.2 ⟨hv, hvs⟩⟩
        intro b hb
        rcases List.mem_cons.1 hb with hb | hb
        · subst hb
          exact hle
        · exact Nat.le_trans hle (hv b hb)
      · rename_i hgt
        refine List.pairwise_cons.2 ⟨?_, ih hvs⟩
        intro b hb
        have hb' := (insertById_perm u vs).mem_iff.1 hb
        rcases List.mem_cons.1 hb' with hb' | hb'
        · subst hb'
          omega
        · exact hv b hb'

theorem sortById_sorted (l : List User) :
    (SQLiteUserRepository.sortById l).Pairwise (fun a b => a.id ≤ b.id) := by
  induction l with
  | nil => exact List.Pairwise.nil
  | cons u us ih => exact insertById_sorted u _ ih

/-- C3: `list_users` returns all stored records in ascending-id order on
both variants — on the in-memory variant for every state reachable by any
call sequence on a fresh instance (its output is exactly the stored dict
values, whose ids the reachability invariant keeps strictly increasing), and
on the SQLite variant for every state whatsoever (its output is an explicitly
sorted permutation of the stored rows).  The empty state yields the empty
sequence as a special case. -/
theorem list_users_sorted_ascending_by_id (ops : List Op)
    (ss : SQLiteRepoState) :
    (InMemoryUserRepository.list_users (memReach ops)).1 =
      (memReach ops).users.map Prod.snd ∧
    ((InMemoryUserRepository.list_users (memReach ops)).1.map
        User.id).Pairwise (· ≤ ·) ∧
    (SQLiteUserRepository.list_users ss).1.Perm ss.db.rows ∧
    ((SQLiteUserRepository.list_users ss).1.map User.id).Pairwise (· ≤ ·) := by
  refine ⟨rfl, ?_, ?_, ?_⟩
  · obtain ⟨hsort, hlt, hid⟩ := memReach_inv ops
    simp only [InMemoryUserRepository.list_users, List.map_map]
    rw [List.pairwise_map]
    refine hsort.imp_of_mem ?_
    intro a b ha hb hab
    simp only [Function.comp]
    rw [hid a ha, hid b hb]
    exact Nat.le_of_lt hab
  · simp only [SQLiteUserRepository.list_users, _init_db_db_rows]
    exact sortById_perm ss.db.rows
  · simp only [SQLiteUserRepository.list_users]
    rw [List.pairwise_map]
    exact sortById_sorted _

/-! ## Lazy schema initialization (C7) -/

theorem _init_db_of_initialized (s : SQLiteRepoState)
    (h : s.initialized = true) : SQLiteUserRepository._init_db s = s := by
  unfold SQLiteUserRepository._init_db
  rw [h]
  rfl

theorem _init_db_of_fresh (s : SQLiteRepoState) (h : s.initialized = false) :
    SQLiteUserRepository._init_db s =
      { db := { s.db with schema_created := true },
        initialized := true, init_count := s.init_count + 1 } := by
  unfold SQLiteUserRepository._init_db
  rw [h]
  rfl

theorem sql_create_user_meta (s : SQLiteRepoState) (un em : String) (t : Nat) :
    (SQLiteUserRepository.create_user s un em t).2.initialized =
        (SQLiteUserRepository._init_db s).initialized ∧
      (SQLiteUserRepository.create_user s un em t).2.init_count =
        (SQLiteUserRepository._init_db s).init_count ∧
      (SQLiteUserRepository.create_user s un em t).2.db.schema_created =
        (SQLiteUserRepository._init_db s).db.schema_created := by
  simp only [SQLiteUserRepository.create_user]
  split
  · exact ⟨rfl, rfl, rfl⟩
  · exact ⟨rfl, rfl, rfl⟩

theorem sqlStep_meta (s : SQLiteRepoState) (op : Op) :
    (sqlStep s op).initialized = (SQLiteUserRepository._init_db s).initialized ∧
    (sqlStep s op).init_count = (SQLiteUserRepository._init_db s).init_count ∧
    (sqlStep s op).db.schema_created =
      (SQLiteUserRepository._init_db s).db.schema_created := by
  cases op with
  | create u e t => exact sql_create_user_meta s u e t
  | get k => exact ⟨rfl, rfl, rfl⟩
  | list => exact ⟨rfl, rfl, rfl⟩

theorem sqlRun_meta_of_initialized (ops : List Op) (s : SQLiteRepoState)
    (h : s.initialized = true) :
    (sqlRun ops s).initialized = true ∧
    (sqlRun ops s).init_count = s.init_count ∧
    (sqlRun ops s).db.schema_created = s.db.schema_created := by
  induction ops generalizing s with
  | nil => exact ⟨h, rfl, rfl⟩
  | cons op rest ih =>
      have hmeta := sqlStep_meta s op
      rw [_init_db_of_initialized s h] at hmeta
      have hstep1 : (sqlStep s op).initialized = true := by
        rw [hmeta.1]; exact h
      have := ih (sqlStep s op) hstep1
      refine ⟨this.1, ?_, ?_⟩
      · show (sqlRun rest (sqlStep s op)).init_count = s.init_count
        rw [this.2.1, hmeta.2.1]
      · show (sqlRun rest (sqlStep s op)).db.schema_created =
          s.db.schema_created
        rw [this.2.2, hmeta.2.2]

/-- C7: on a fresh `SQLiteUserRepository` instance, the first operation —
whichever of `create_user`, `get_user`, `list_users` — runs the idempotent
create-if-absent schema creation exactly once (the ghost `init_count` of the
instance ends at 1 after any nonempty call sequence) and sets `_initialized`;
every later operation on the instance skips schema creation (`_init_db` is
the identity once the flag is set, so `init_count` never grows again). -/
theorem sqlite_first_op_initializes_schema_once (d : SQLiteDB)
    (ops : List Op) (h : ops ≠ []) :
    (sqlRun ops (SQLiteUserRepository.init d)).init_count = 1 ∧
    (sqlRun ops (SQLiteUserRepository.init d)).initialized = true ∧
    (sqlRun ops (SQLiteUserRepository.init d)).db.schema_created = true := by
  cases ops with
  | nil => exact absurd rfl h
  | cons op rest =>
      have hmeta := sqlStep_meta (SQLiteUserRepository.init d) op
      rw [_init_db_of_fresh _ rfl] at hmeta
      have h1 : (sqlStep (SQLiteUserRepository.init d) op).initialized = true :=
        hmeta.1
      have h2 : (sqlStep (SQLiteUserRepository.init d) op).init_count = 1 :=
        hmeta.2.1
      have h3 : (sqlStep (SQLiteUserRepository.init d) op).db.schema_created =
          true := hmeta.2.2
      have hrun := sqlRun_meta_of_initialized rest _ h1
      refine ⟨?_, hrun.1, ?_⟩
      · show (sqlRun rest (sqlStep (SQLiteUserRepository.init d) op)).init_count = 1
        rw [hrun.2.1, h2]
      · show (sqlRun rest
            (sqlStep (SQLiteUserRepository.init d) op)).db.schema_created = true
        rw [hrun.2.2, h3]

/-- Witness for C7: a single `list_users` call on a fresh instance over an
empty database file. -/
theorem sqlite_first_op_initializes_schema_once_witness :
    (([Op.list] : List Op) ≠ []) ∧
    (sqlRun [Op.list] (SQLiteUserRepository.init ⟨false, []⟩)).init_count = 1 ∧
    (sqlRun [Op.list] (SQLiteUserRepository.init ⟨false, []⟩)).initialized
      = true ∧
    (sqlRun [Op.list]
        (SQLiteUserRepository.init ⟨false, []⟩)).db.schema_created = true :=
  ⟨by decide,
   sqlite_first_op_initializes_schema_once ⟨false, []⟩ [Op.list] (by decide)⟩

/-! ## Factory selector matching (C5) -/

theorem messageNames_append_left (a b v : String) (h : messageNames a v) :
    messageNames (a ++ b) v := by
  unfold messageNames at h ⊢
  rw [String.data_append]
  exact h.trans (List.prefix_append a.data b.data).isInfix

theorem messageNames_append_right (a b v : String) (h : messageNames b v) :
    messageNames (a ++ b) v := by
  unfold messageNames at h ⊢
  rw [String.data_append]
  exact h.trans (List.suffix_append a.data b.data).isInfix

theorem messageNames_self (v : String) : messageNames v v :=
  List.infix_refl v.data

/-- C5 counterexample: called with the invalid selector `"FOO"`, the factory
raises, but the error message contains only the lowercased `"foo"`, so it
does not name the invalid value `"FOO"` that was passed. -/
theorem factory_error_message_omits_original_selector :
    create_user_repository (some "FOO") (fun _ => none) =
      .error "Unknown repository type: foo. Use \x27memory\x27 or \x27sqlite\x27" ∧
    ¬ messageNames
        "Unknown repository type: foo. Use \x27memory\x27 or \x27sqlite\x27"
        "FOO" := by
  constructor
  · rfl
  · intro h
    exact absurd (by decide :
      Decidable.decide ("FOO".data <:+:
        ("Unknown repository type: foo. Use \x27memory\x27 or \x27sqlite\x27").data)
        = false) (by simpa using h)

/-- C5 as amended: the factory matches the selector case-insensitively —
any casing of `memory` yields the in-memory variant, any casing of `sqlite`
the persistent variant (with its default `users.db` path) — and every other
string makes it fail with a `ValueError` whose message names the lowercased
invalid value and both accepted values `memory` and `sqlite`; the factory is
a pure selection function of its inputs (no other side effects). -/
theorem factory_matches_selector_case_insensitively (s : String)
    (env : String → Option String) :
    (lowerStr s = "memory" →
      create_user_repository (some s) env = .ok .memory) ∧
    (lowerStr s = "sqlite" →
      create_user_repository (some s) env = .ok (.sqlite "users.db")) ∧
    (lowerStr s ≠ "memory" → lowerStr s ≠ "sqlite" →
      ∃ msg, create_user_repository (some s) env = .error msg ∧
        messageNames msg (lowerStr s) ∧ messageNames msg "memory" ∧
        messageNames msg "sqlite") := by
  refine ⟨?_, ?_, ?_⟩
  · intro h
    simp only [create_user_repository, h]
    rfl
  · intro h
    simp only [create_user_repository, h]
    rfl
  · intro h1 h2
    refine ⟨"Unknown repository type: " ++ lowerStr s ++
      ". Use \x27memory\x27 or \x27sqlite\x27", ?_, ?_, ?_, ?_⟩
    · simp only [create_user_repository, if_neg h1, if_neg h2]
    · exact messageNames_append_left _ _ _
        (messageNames_append_right _ _ _ (messageNames_self _))
    · exact messageNames_append_right _ _ _ (by decide)
    · exact messageNames_append_right _ _ _ (by decide)

/-- Witness for C5 (amended): the selectors `MemORY`, `SQLite` and `postgres`. -/
theorem factory_matches_selector_case_insensitively_witness :
    create_user_repository (some "MemORY") (fun _ => none) = .ok .memory ∧
    create_user_repository (some "SQLite") (fun _ => none) =
      .ok (.sqlite "users.db") ∧
    (∃ msg, create_user_repository (some "postgres") (fun _ => none) =
        .error msg ∧
      messageNames msg (lowerStr "postgres") ∧ messageNames msg "memory" ∧
      messageNames msg "sqlite") :=
  ⟨(factory_matches_selector_case_insensitively "MemORY" (fun _ => none)).1
      (by decide),
   (factory_matches_selector_case_insensitively "SQLite" (fun _ => none)).2.1
      (by decide),
   (factory_matches_selector_case_insensitively "postgres" (fun _ => none)).2.2
      (by decide) (by decide)⟩

/-! ## Concurrency: the lock makes ids distinct (C9) -/

theorem countP_set_same (l : List CTask) (i : Nat) (t t' : CTask)
    (p : CTask → Bool) (ht : l[i]? = some t) (h : p t = p t') :
    (l.set i t').countP p = l.countP p := by
  induction l generalizing i with
  | nil => cases ht
  | cons x xs ih =>
      cases i with
      | zero =>
          rw [List.getElem?_cons_zero] at ht
          have hx : x = t := Option.some.inj ht
          subst hx
          simp [List.countP_cons, h]
      | succ n =>
          rw [List.getElem?_cons_succ] at ht
          simp [List.countP_cons, ih n ht]

theorem countP_set_incr (l : List CTask) (i : Nat) (t t' : CTask)
    (p : CTask → Bool) (ht : l[i]? = some t) (hf : p t = false)
    (htr : p t' = true) :
    (l.set i t').countP p = l.countP p + 1 := by
  induction l generalizing i with
  | nil => cases ht
  | cons x xs ih =>
      cases i with
      | zero =>
          rw [List.getElem?_cons_zero] at ht
          have hx : x = t := Option.some.inj ht
          subst hx
          simp [List.countP_cons, hf, htr]
      | succ n =>
          rw [List.getElem?_cons_succ] at ht
          simp only [List.set_cons_succ, List.countP_cons, ih n ht]
          omega

theorem concInv_init (tasks : List CTask)
    (h : ∀ t ∈ tasks, t.phase = .ready) : concInv (concInit tasks) := by
  refine ⟨List.nodup_nil, ?_, ?_, ?_, ?_⟩
  · intro p hp
    cases hp
  · intro i t ht hhold
    rw [h t (List.getElem?_mem ht)] at hhold
    cases hhold
  · intro i t k ht hph
    rw [h t (List.getElem?_mem ht)] at hph
    cases hph
  · show 0 = tasks.countP _
    symm
    rw [List.countP_eq_zero]
    intro t ht
    rw [h t ht]
    simp [hasInserted]

theorem concInv_step (cs cs' : ConcState) (hstep : CStep cs cs')
    (hinv : concInv cs) : concInv cs' := by
  obtain ⟨hnodup, hbound, hlock, hgot, hcount⟩ := hinv
  cases hstep with
  | acquire i t ht hp hl =>
      have hi : i < cs.tasks.length := (List.getElem?_eq_some.1 ht).1
      refine ⟨hnodup, hbound, ?_, ?_, ?_⟩
      · intro j t' hj hhold
        by_cases hij : i = j
        · subst hij
          rfl
        · rw [List.getElem?_set_ne hij] at hj
          have := hlock j t' hj hhold
          rw [hl] at this
          exact Option.noConfusion this
      · intro j t' k hj hph
        by_cases hij : i = j
        · subst hij
          rw [List.getElem?_set_self hi] at hj
          have hj' := Option.some.inj hj
          subst hj'
          simp at hph
        · rw [List.getElem?_set_ne hij] at hj
          exact hgot j t' k hj hph
      · show cs.store.users.length = _
        rw [countP_set_same cs.tasks i t _ _ ht (by rw [hp]; rfl)]
        exact hcount
  | read i t ht hp =>
      have hi : i < cs.tasks.length := (List.getElem?_eq_some.1 ht).1
      refine ⟨hnodup, hbound, ?_, ?_, ?_⟩
      · intro j t' hj hhold
        by_cases hij : i = j
        · subst hij
          exact hlock i t ht (by rw [hp]; rfl)
        · rw [List.getElem?_set_ne hij] at hj
          exact hlock j t' hj hhold
      · intro j t' k hj hph
        by_cases hij : i = j
        · subst hij
          rw [List.getElem?_set_self hi] at hj
          have hj' := Option.some.inj hj
          subst hj'
          exact (Phase.gotId.inj hph).symm
        · rw [List.getElem?_set_ne hij] at hj
          exact hgot j t' k hj hph
      · show cs.store.users.length = _
        rw [countP_set_same cs.tasks i t _ _ ht (by rw [hp]; rfl)]
        exact hcount
  | write i t k ht hp =>
      have hi : i < cs.tasks.length := (List.getElem?_eq_some.1 ht).1
      have hk : k = cs.store.next_id := hgot i t k ht hp
      have hfreshkeys : ∀ p ∈ cs.store.users, p.1 ≠ k := by
        intro p hp'
        have := hbound p hp'
        omega
      have happend : dictInsert k ⟨k, t.username, t.email, t.now⟩
          cs.store.users = cs.store.users ++
            [(k, ⟨k, t.username, t.email, t.now⟩)] :=
        dictInsert_fresh _ _ _ hfreshkeys
      refine ⟨?_, ?_, ?_, ?_, ?_⟩
      · show ((dictInsert k _ cs.store.users).map Prod.fst).Nodup
        rw [happend, List.map_append, List.nodup_append]
        refine ⟨hnodup, List.nodup_singleton _, ?_⟩
        intro a ha hb
        simp only [List.map_cons, List.map_nil, List.mem_singleton] at hb
        subst hb
        obtain ⟨p, hp', hpa⟩ := List.mem_map.1 ha
        have := hbound p hp'
        omega
      · intro p hp'
        show p.1 < cs.store.next_id + 1
        rw [happend] at hp'
        rcases List.mem_append.1 hp' with hmem | hmem
        · have := hbound p hmem
          omega
        · simp only [List.mem_singleton] at hmem
          subst hmem
          omega
      · intro j t' hj hhold
        by_cases hij : i = j
        · subst hij
          exact hlock i t ht (by rw [hp]; rfl)
        · rw [List.getElem?_set_ne hij] at hj
          exact hlock j t' hj hhold
      · intro j t' k' hj hph
        by_cases hij : i = j
        · subst hij
          rw [List.getElem?_set_self hi] at hj
          have hj' := Option.some.inj hj
          subst hj'
          simp at hph
        · rw [List.getElem?_set_ne hij] at hj
          have h1 := hlock j t' hj (by rw [hph]; rfl)
          have h2 := hlock i t ht (by rw [hp]; rfl)
          exact absurd (Option.some.inj (h2.symm.trans h1)) hij
      · show (dictInsert k _ cs.store.users).length = _
        rw [happend, List.length_append,
          countP_set_incr cs.tasks i t _ _ ht (by rw [hp]; rfl) rfl, hcount]
        rfl
  | release i t ht hp =>
      have hi : i < cs.tasks.length := (List.getElem?_eq_some.1 ht).1
      refine ⟨hnodup, hbound, ?_, ?_, ?_⟩
      · intro j t' hj hhold
        by_cases hij : i = j
        · subst hij
          rw [List.getElem?_set_self hi] at hj
          have hj' := Option.some.inj hj
          subst hj'
          cases hhold
        · rw [List.getElem?_set_ne hij] at hj
          have h1 := hlock j t' hj hhold
          have h2 := hlock i t ht (by rw [hp]; rfl)
          exact absurd (Option.some.inj (h2.symm.trans h1)) hij
      · intro j t' k hj hph
        by_cases hij : i = j
        · subst hij
          rw [List.getElem?_set_self hi] at hj
          have hj' := Option.some.inj hj
          subst hj'
          simp at hph
        · rw [List.getElem?_set_ne hij] at hj
          have h1 := hlock j t' hj (by rw [hph]; rfl)
          have h2 := hlock i t ht (by rw [hp]; rfl)
          exact absurd (Option.some.inj (h2.symm.trans h1)) hij
      · show cs.store.users.length = _
        rw [countP_set_same cs.tasks i t _ _ ht (by rw [hp]; rfl)]
        exact hcount

theorem concInv_steps (cs cs' : ConcState)
    (h : Relation.ReflTransGen CStep cs cs') (hinv : concInv cs) :
    concInv cs' := by
  induction h with
  | refl => exact hinv
  | tail hab hbc ih => exact concInv_step _ _ hbc ih

theorem CStep_tasks_length (cs cs' : ConcState) (h : CStep cs cs') :
    cs'.tasks.length = cs.tasks.length := by
  cases h <;> simp

theorem CSteps_tasks_length (cs cs' : ConcState)
    (h : Relation.ReflTransGen CStep cs cs') :
    cs'.tasks.length = cs.tasks.length := by
  induction h with
  | refl => rfl
  | tail hab hbc ih => rw [CStep_tasks_length _ _ hbc, ih]

/-- C9: launching N concurrent `create_user` calls against one fresh
in-memory instance and letting any interleaving of their steps run to
completion leaves exactly N stored records with N pairwise-distinct ids:
holding `self._lock` across the read-counter / construct / insert /
increment section means no two calls can ever receive the same id. -/
theorem concurrent_creates_yield_distinct_ids (tasks₀ : List CTask)
    (h₀ : ∀ t ∈ tasks₀, t.phase = .ready) (cs : ConcState)
    (hreach : Relation.ReflTransGen CStep (concInit tasks₀) cs)
    (hdone : ∀ t ∈ cs.tasks, t.phase = .done) :
    cs.store.users.length = tasks₀.length ∧
    (cs.store.users.map Prod.fst).Nodup := by
  obtain ⟨hnodup, _, _, _, hcount⟩ :=
    concInv_steps _ _ hreach (concInv_init tasks₀ h₀)
  refine ⟨?_, hnodup⟩
  rw [hcount]
  have hlen : cs.tasks.length = tasks₀.length := CSteps_tasks_length _ _ hreach
  rw [← hlen]
  exact List.countP_eq_length.2 (fun t ht => by rw [hdone t ht]; rfl)

/-- An explicit complete interleaving of two concurrent `create_user`
calls: task 0 runs its critical section, then task 1 runs its own. -/
theorem concTwoTaskRun :
    Relation.ReflTransGen CStep
      (concInit [⟨"a", "a@x", 0, .ready⟩, ⟨"b", "b@x", 1, .ready⟩])
      ⟨⟨[(1, ⟨1, "a", "a@x", 0⟩), (2, ⟨2, "b", "b@x", 1⟩)], 3⟩, none,
        [⟨"a", "a@x", 0, .done⟩, ⟨"b", "b@x", 1, .done⟩]⟩ := by
  refine .head (CStep.acquire _ 0 ⟨"a", "a@x", 0, .ready⟩ rfl rfl rfl) ?_
  refine .head (CStep.read _ 0 ⟨"a", "a@x", 0, .locked⟩ rfl rfl) ?_
  refine .head (CStep.write _ 0 ⟨"a", "a@x", 0, .gotId 1⟩ 1 rfl rfl) ?_
  refine .head (CStep.release _ 0 ⟨"a", "a@x", 0, .finished⟩ rfl rfl) ?_
  refine .head (CStep.acquire _ 1 ⟨"b", "b@x", 1, .ready⟩ rfl rfl rfl) ?_
  refine .head (CStep.read _ 1 ⟨"b", "b@x", 1, .locked⟩ rfl rfl) ?_
  refine .head (CStep.write _ 1 ⟨"b", "b@x", 1, .gotId 2⟩ 2 rfl rfl) ?_
  refine .head (CStep.release _ 1 ⟨"b", "b@x", 1, .finished⟩ rfl rfl) ?_
  exact .refl

/-- Witness for C9: the explicit two-task interleaving ends with 2 records
and distinct ids. -/
theorem concurrent_creates_yield_distinct_ids_witness :
    ((⟨⟨[(1, ⟨1, "a", "a@x", 0⟩), (2, ⟨2, "b", "b@x", 1⟩)], 3⟩, none,
      [⟨"a", "a@x", 0, .done⟩, ⟨"b", "b@x", 1, .done⟩]⟩ :
        ConcState)).store.users.length = 2 ∧
    (((⟨⟨[(1, ⟨1, "a", "a@x", 0⟩), (2, ⟨2, "b", "b@x", 1⟩)], 3⟩, none,
      [⟨"a", "a@x", 0, .done⟩, ⟨"b", "b@x", 1, .done⟩]⟩ :
        ConcState)).store.users.map Prod.fst).Nodup :=
  concurrent_creates_yield_distinct_ids
    [⟨"a", "a@x", 0, .ready⟩, ⟨"b", "b@x", 1, .ready⟩] (by decide)
    _ concTwoTaskRun (by decide)

end FactoryPattern
